import Mathlib

/-!
Verification development for the hts-rs core crate (hts-core).

The Rust sources are shallowly embedded: a polars DataFrame restricted to
string-valued key columns becomes a `DFrame` (a column-name list plus rows of
string cells), the hierarchy specification and tree of
src/crates/hts-core/src/hierarchy.rs become `HierarchySpec`, `Node` and
`HierarchyTree`, the dense f64 summation matrix of
src/crates/hts-core/src/summation_matrix.rs is modelled exactly over `Int`
(the claims under study only concern integer-exact values, where IEEE f64
arithmetic agrees with exact integer arithmetic), and the period parser of
src/crates/hts-core/src/period.rs becomes `Period.parse`.
-/

namespace Hts

/-! ### Character-list lexicographic comparison

Polars sorts utf8 columns lexicographically; we model the comparison on the
character lists underlying Lean strings (identical to byte order on the
ASCII data used throughout). -/

/-- Strict lexicographic order on character lists, by code point. -/
def charListLt : List Char → List Char → Bool
  | [], [] => false
  | [], _ :: _ => true
  | _ :: _, [] => false
  | a :: as, b :: bs => a.toNat < b.toNat || (a.toNat == b.toNat && charListLt as bs)

/-- Strict lexicographic order on strings. -/
def strLtB (a b : String) : Bool := charListLt a.data b.data

/-- Row comparison used by the multi-column ascending sort: compare the cell
of the first column, ties broken by the remaining columns. -/
def rowLeB : List String → List String → Bool
  | [], _ => true
  | _ :: _, [] => false
  | a :: as, b :: bs => strLtB a b || (a == b && rowLeB as bs)

/-- Propositional form of `rowLeB`, for use with `List.insertionSort`. -/
def rowLeP (a b : List String) : Prop := rowLeB a b = true

instance : DecidableRel rowLeP :=
  fun a b => inferInstanceAs (Decidable (rowLeB a b = true))

/-! ### Data frame model -/

/-- A row of string cells, positionally aligned with a column-name list. -/
abbrev Row := List String

/-- A data frame restricted to string-valued columns: the polars DataFrame
as consumed by the hierarchy builder. -/
structure DFrame where
  cols : List String
  rows : List Row
  deriving DecidableEq, Repr

/-- Value of the named column in a row: the cell at the position of the
first column with that name, defaulting to the empty string when absent.
This models `df.column(name)?.get(row_idx)` stringified. -/
def getCell : List String → Row → String → String
  | c :: cs, v :: vs, name => if c = name then v else getCell cs vs name
  | _, _, _ => ""

/-- Projection of one row onto a list of column names, in that order.
This models selecting those columns from the frame. -/
def projCells (cols : List String) (names : List String) (r : Row) : Row :=
  names.map (fun c => getCell cols r c)

/-- Deduplication keeping the first occurrence of each row, modelling
polars `unique(None, UniqueKeepStrategy::First)`. -/
def uniqueFirstAux (seen : List Row) : List Row → List Row
  | [] => []
  | r :: rs => if r ∈ seen then uniqueFirstAux seen rs
               else r :: uniqueFirstAux (r :: seen) rs

/-- Deduplication keeping first occurrences. -/
def uniqueFirst (l : List Row) : List Row := uniqueFirstAux [] l

/-- Ascending sort of rows by all their columns, modelling polars
`sort(cols, SortMultipleOptions::default())` (the sorted rows are always
pairwise distinct here, so stability is irrelevant). -/
def sortRows (l : List Row) : List Row := List.insertionSort rowLeP l

/-! ### Hierarchy specification (hierarchy.rs) -/

/-- Specification of hierarchical and grouped structure
(`HierarchySpec` in hierarchy.rs). -/
structure HierarchySpec where
  hierarchy : List String
  groups : List String
  deriving DecidableEq, Repr

/-- Returns all columns involved in the structure (`all_columns`). -/
def HierarchySpec.all_columns (s : HierarchySpec) : List String :=
  s.hierarchy ++ s.groups

/-- The key a level is deduplicated by: its columns joined with `/`
(`k.join("/")` in `level_combinations`). -/
def joinKey : List String → String
  | [] => ""
  | [x] => x
  | x :: y :: xs => x ++ "/" ++ joinKey (y :: xs)

/-- The level list as pushed by `level_combinations` before deduplication
and sorting: the total level, then for each prefix length `h` of the
hierarchy the pure-hierarchy level (for `h > 0`), the pure-group level
(at `h = 0` when groups exist and the hierarchy is non-empty) and the
crossed level (for `0 < h <` hierarchy length). -/
def rawLevels (s : HierarchySpec) : List (List String) :=
  [([] : List String)] ++
    (List.range (s.hierarchy.length + 1)).flatMap (fun h =>
      (if 0 < h then [s.hierarchy.take h] else []) ++
      (if !s.groups.isEmpty ∧ h < s.hierarchy.length then
        (if h = 0 then [s.groups] else []) ++
        (let crossed := s.hierarchy.take h ++ s.groups
         if !crossed.isEmpty ∧ 0 < h then [crossed] else [])
      else []))

/-- The raw level list with the bottom level (all columns) appended when it
is not already present element-wise. -/
def withBottom (s : HierarchySpec) : List (List String) :=
  let keys := rawLevels s
  if s.all_columns ∈ keys then keys else keys ++ [s.all_columns]

/-- Deduplication of levels by their joined key, keeping first occurrences:
a `HashSet<String>` of seen keys drives `retain`. -/
def dedupByJoin (seen : List String) : List (List String) → List (List String)
  | [] => []
  | k :: ks =>
    if joinKey k ∈ seen then dedupByJoin seen ks
    else k :: dedupByJoin (joinKey k :: seen) ks

/-- Comparison by column count, the key of the final stable
`sort_by_key(|k| k.len())`. -/
def lenLeP (a b : List String) : Prop := a.length ≤ b.length

instance : DecidableRel lenLeP :=
  fun a b => inferInstanceAs (Decidable (a.length ≤ b.length))

instance : IsTotal (List String) lenLeP := ⟨fun a b => Nat.le_total _ _⟩

instance : IsTrans (List String) lenLeP := ⟨fun _ _ _ => Nat.le_trans⟩

/-- Returns all combinations of columns that define aggregation levels
(`HierarchySpec::level_combinations`). -/
def HierarchySpec.level_combinations (s : HierarchySpec) : List (List String) :=
  List.insertionSort lenLeP (dedupByJoin [] (withBottom s))

/-- First specified column missing from the frame, if any: the validation
loop of `HierarchySpec::validate`. -/
def firstMissing (specCols dfCols : List String) : Option String :=
  specCols.find? (fun c => !(dfCols.contains c))

/-! ### Errors (error.rs) -/

/-- Error type of the crate (`HtsError`), restricted to the variants the
embedded operations can produce. -/
inductive HtsError where
  | columnNotFound : String → HtsError
  | invalidPeriod : String → HtsError
  deriving DecidableEq, Repr

/-! ### Hierarchy tree (hierarchy.rs) -/

/-- A node representing one series in the hierarchy (`Node`). The labels
map is an association list where a later insertion shadows an earlier one,
modelling `HashMap::insert`. -/
structure Node where
  id : String
  level : Nat
  aggregates_from : List Nat
  labels : List (String × String)
  deriving DecidableEq, Repr

instance : Inhabited Node := ⟨⟨"", 0, [], []⟩⟩

/-- Returns true if this is a bottom-level (most disaggregated) node
(`Node::is_bottom`): the member count equals one. -/
def Node.is_bottom (n : Node) : Bool := n.aggregates_from.length == 1

/-- The hierarchy tree containing all aggregation levels (`HierarchyTree`).
The id lookup is an association list built by prepending, so a later
insertion with the same id shadows an earlier one, exactly like
`HashMap::insert`. -/
structure HierarchyTree where
  nodes : List Node
  n_bottom : Nat
  n_levels : Nat
  id_to_index : List (String × Nat)
  deriving DecidableEq, Repr

/-- The sorted, deduplicated projection of the input frame onto all spec
columns: the `bottom_df` computed by `from_dataframe`. -/
def bottomFrame (df : DFrame) (spec : HierarchySpec) : DFrame :=
  ⟨spec.all_columns,
   sortRows (uniqueFirst (df.rows.map (projCells df.cols spec.all_columns)))⟩

/-- One node of a non-total level, built from one row of the unique sorted
projection of the bottom frame onto the level columns: labels and id parts
are read off column by column, and the member set collects every bottom row
whose cells match the labels on all level columns. -/
def buildNode (bottom : DFrame) (m lvl : Nat) (lc : List String) (row : Row) : Node :=
  let labels := lc.foldl (fun acc c => (c, getCell lc row c) :: acc) []
  let idParts := lc.map (fun c => getCell lc row c)
  { id := joinKey idParts
    level := lvl
    aggregates_from := (List.range m).filter (fun j =>
      lc.all (fun c =>
        List.lookup c labels == some (getCell bottom.cols (bottom.rows.getD j []) c)))
    labels := labels }

/-- All nodes of one level: the single total node for the empty level,
otherwise one node per row of the unique sorted projection of the bottom
frame onto the level columns. -/
def buildLevelNodes (bottom : DFrame) (m lvl : Nat) (lc : List String) : List Node :=
  if lc.isEmpty then
    [{ id := "Total", level := lvl, aggregates_from := List.range m, labels := [] }]
  else
    (sortRows (uniqueFirst (bottom.rows.map (projCells bottom.cols lc)))).map
      (buildNode bottom m lvl lc)

/-- Builds a hierarchy tree from a data frame and specification
(`HierarchyTree::from_dataframe`): validate the spec columns, compute the
sorted unique bottom projection, build the nodes of every level in order,
and register each node id in the lookup index (without any collision
check, a later insertion silently shadowing an earlier one). -/
def HierarchyTree.from_dataframe (df : DFrame) (spec : HierarchySpec) :
    Except HtsError HierarchyTree :=
  match firstMissing spec.all_columns df.cols with
  | some c => .error (.columnNotFound c)
  | none =>
    let bottom := bottomFrame df spec
    let nBottom := bottom.rows.length
    let levels := spec.level_combinations
    let nodes := levels.enum.flatMap (fun p => buildLevelNodes bottom nBottom p.1 p.2)
    let idToIndex := nodes.enum.foldl (fun acc p => (p.2.id, p.1) :: acc) []
    .ok ⟨nodes, nBottom, levels.length, idToIndex⟩

/-- Returns the total number of series (`n_series`). -/
def HierarchyTree.n_series (t : HierarchyTree) : Nat := t.nodes.length

/-- Returns the node with the given ID, if it exists (`get_node`). -/
def HierarchyTree.get_node (t : HierarchyTree) (id : String) : Option Node :=
  (List.lookup id t.id_to_index).bind (fun idx => t.nodes.get? idx)

/-- The bottom-level node filter (`bottom_level_nodes`): all nodes whose
member count is one, in tree order. -/
def HierarchyTree.bottom_level_nodes (t : HierarchyTree) : List Node :=
  t.nodes.filter Node.is_bottom

/-! ### Summation matrix (summation_matrix.rs)

The dense `faer::Mat<f64>` holds only the values 0 and 1. The product
`y = S * b` is computed in IEEE binary64 arithmetic: each multiplication
is by 0.0 or 1.0 (exact for every double), but each accumulation step
rounds its exact sum to the nearest representable double. For an input
vector of integer-valued doubles every exact intermediate sum is an
integer, and the binary64 rounding of an integer is again an integer (the
representable doubles of magnitude at least 2^53 are integers, and every
integer of magnitude at most 2^53 is representable), so the whole
computation stays inside `Int` provided each rounding step is modelled:
`fRound` below is round-to-nearest, ties-to-even of an integer onto the
binary64 grid, and the dot product is the left-to-right fold of rounded
additions (the spec notes the summation order is deterministic for a
fixed row/entry order). The magnitudes arising in the claims stay far
below the binary64 overflow threshold 2^1024, so overflow to infinity is
not modelled. -/

/-- The summation matrix S where y = S b (`SummationMatrix`). -/
structure SummationMatrix where
  nrows : Nat
  ncols : Nat
  entry : Nat → Nat → Int
  row_labels : List String
  col_labels : List String

/-- Builds the summation matrix from a hierarchy tree
(`SummationMatrix::from_hierarchy`): an n-by-m zero matrix receives a one
at `(row, j)` for every member `j` of the node at `row`; row labels are
all node ids in tree order and column labels the ids of the
`bottom_level_nodes`. -/
def SummationMatrix.from_hierarchy (t : HierarchyTree) : SummationMatrix :=
  { nrows := t.n_series
    ncols := t.n_bottom
    entry := fun i j =>
      if j ∈ (t.nodes.getD i default).aggregates_from then 1 else 0
    row_labels := t.nodes.map Node.id
    col_labels := t.bottom_level_nodes.map Node.id }

/-- Returns the matrix dimensions (`shape`). -/
def SummationMatrix.shape (s : SummationMatrix) : Nat × Nat := (s.nrows, s.ncols)

/-- Number of binary digits of a natural number (`bitLen n = floor (log2 n) + 1`
for positive `n`, and `bitLen 0 = 0`), via a fuel argument so that the
recursion is structural; `fuel = n` always suffices since the argument at
least halves at every step. -/
def bitLenAux : Nat → Nat → Nat
  | 0, _ => 0
  | fuel + 1, n => if n = 0 then 0 else bitLenAux fuel (n / 2) + 1

/-- Number of binary digits of a natural number. -/
def bitLen (n : Nat) : Nat := bitLenAux n n

/-- IEEE binary64 rounding of an integer value: round to nearest
representable double, ties to even. An integer of magnitude at most 2^53
is exactly representable and returned unchanged. A larger integer `n`
with `|n|` in the binade `[2^e, 2^(e+1))`, where `e = bitLen |n| - 1 ≥ 53`,
is rounded to the nearest multiple of the unit in the last place
`2^(e - 52)`; a tie goes to the even multiple (when rounding up reaches
the next binade the result `2^(e+1)` has an even significand, consistent
with the even-multiple rule). Rounding is symmetric in sign. -/
def fRound (n : Int) : Int :=
  if n.natAbs ≤ 2 ^ 53 then n
  else
    let a := n.natAbs
    let g := 2 ^ (bitLen a - 53)
    let q := a / g
    let r := a % g
    let q2 := if 2 * r < g then q
      else if g < 2 * r then q + 1
      else if q % 2 = 0 then q else q + 1
    if n < 0 then -(Int.ofNat (q2 * g)) else Int.ofNat (q2 * g)

/-- IEEE binary64 addition of two integer-valued doubles: the exact sum
(an integer) rounded to the nearest representable double. -/
def fadd (a b : Int) : Int := fRound (a + b)

/-- Aggregates bottom-level values to all levels, y = S b (`aggregate`).
The Rust function asserts the input length and panics otherwise, modelled
by `none`; otherwise it returns the binary64 matrix-vector product: each
row's dot product is the left-to-right fold of IEEE additions of the
products `S[i,j] * b[j]`, which are exact because every matrix entry is
0.0 or 1.0. -/
def SummationMatrix.aggregate (s : SummationMatrix) (b : List Int) :
    Option (List Int) :=
  if b.length = s.ncols then
    some ((List.range s.nrows).map (fun i =>
      ((List.range s.ncols).map
        (fun j => s.entry i j * b.getD j 0)).foldl fadd 0))
  else none

/-! ### Time periods (period.rs) -/

/-- A time period used as the index for time series data (`Period`).
A `chrono::NaiveDate` is represented by its year, month and day. -/
inductive Period where
  | Annual : Int → Period
  | Quarterly : Int → Nat → Period
  | Monthly : Int → Nat → Period
  | Weekly : Int → Nat → Period
  | Daily : Int → Nat → Nat → Period
  deriving DecidableEq, Repr

/-- Numeric value of a digit list, if all characters are ASCII digits and
the list is non-empty. -/
def digitsToNat : List Char → Option Nat
  | [] => none
  | cs =>
    if cs.all Char.isDigit then
      some (cs.foldl (fun acc c => acc * 10 + (c.toNat - 48)) 0)
    else none

/-- Parse of a Rust `u32` from a string: optional leading plus sign, then
decimal digits, within the `u32` range. -/
def parseU32 (s : String) : Option Nat :=
  let core := match s.data with
    | '+' :: rest => digitsToNat rest
    | cs => digitsToNat cs
  core.bind (fun v => if v ≤ 4294967295 then some v else none)

/-- Parse of a Rust `i32` from a string: optional sign then decimal digits,
within the `i32` range. -/
def parseI32 (s : String) : Option Int :=
  match s.data with
  | '+' :: rest =>
    (digitsToNat rest).bind (fun v =>
      if v ≤ 2147483647 then some (Int.ofNat v) else none)
  | '-' :: rest =>
    (digitsToNat rest).bind (fun v =>
      if v ≤ 2147483648 then some (-(Int.ofNat v)) else none)
  | cs =>
    (digitsToNat cs).bind (fun v =>
      if v ≤ 2147483647 then some (Int.ofNat v) else none)

/-- Days in a month of the proleptic Gregorian calendar. -/
def daysInMonth (y : Int) (m : Nat) : Nat :=
  if m = 2 then
    if y % 4 = 0 ∧ (y % 100 ≠ 0 ∨ y % 400 = 0) then 29 else 28
  else if m = 4 ∨ m = 6 ∨ m = 9 ∨ m = 11 then 30
  else 31

/-- Modelled from the spec: `NaiveDate::parse_from_str(s, "%Y-%m-%d")` of
the external chrono crate, documented in the spec as the Daily shape
`YYYY-MM-DD`; three dash-separated digit groups forming a valid calendar
date, with no surrounding garbage. -/
def parseDaily (s : String) : Option (Int × Nat × Nat) :=
  match (s.data.splitOn '-').map digitsToNat with
  | [some y, some mo, some d] =>
    if 1 ≤ mo ∧ mo ≤ 12 ∧ 1 ≤ d ∧ d ≤ daysInMonth (Int.ofNat y) mo then
      some (Int.ofNat y, mo, d)
    else none
  | _ => none

/-- Whitespace in the sense of Rust's `char::is_whitespace` (and hence of
`str::trim` and `str::split_whitespace`): the Unicode `White_Space`
property, i.e. U+0009..U+000D, U+0020, U+0085, U+00A0, U+1680,
U+2000..U+200A, U+2028, U+2029, U+202F, U+205F and U+3000. -/
def rustWhitespace (c : Char) : Bool :=
  let n := c.toNat
  (9 ≤ n && n ≤ 13) || n == 32 || n == 133 || n == 160 || n == 5760 ||
    (8192 ≤ n && n ≤ 8202) || n == 8232 || n == 8233 || n == 8239 ||
    n == 8287 || n == 12288

/-- Whitespace trim of both ends of a character list, modelling
`str::trim`. -/
def trimChars (cs : List Char) : List Char :=
  ((cs.dropWhile rustWhitespace).reverse.dropWhile rustWhitespace).reverse

/-- Splitting into maximal whitespace-free words, modelling
`str::split_whitespace`; the first argument accumulates the current word
in reverse. -/
def wordSplit (cur : List Char) : List Char → List (List Char)
  | [] => if cur.isEmpty then [] else [cur.reverse]
  | c :: cs =>
    if rustWhitespace c then
      if cur.isEmpty then wordSplit [] cs else cur.reverse :: wordSplit [] cs
    else wordSplit (c :: cur) cs

/-- The whitespace-separated words of a string. -/
def splitWs (s : String) : List String :=
  (wordSplit [] s.data).map String.mk

/-- UTF-8 byte length of a character list; Rust's `str::len` counts
bytes, not characters. -/
def utf8Len (cs : List Char) : Nat := (cs.map Char.utf8Size).sum

/-- Parse of the already-trimmed input (`Period::parse` after `s.trim()`):
daily is tried first, then a single token is annual, then a two-token
indicator-plus-number shape with the frequency-specific range checks;
everything else is an invalid-period error. The outer `Option` models a
panic as `none`: the suffix length guard `suffix.len() < 2` counts UTF-8
bytes, and the subsequent byte slice `&suffix[1..]` panics when byte
index 1 is not a character boundary, that is, exactly when the first
character of the second token occupies more than one byte; when that
character is a single byte, the byte slice from index 1 is the remaining
characters, `p1.data.drop 1`. -/
def parseTrimmed (s : String) : Option (Except HtsError Period) :=
  match parseDaily s with
  | some (y, mo, d) => some (.ok (.Daily y mo d))
  | none =>
    match splitWs s with
    | [p0] =>
      match parseI32 p0 with
      | some year => some (.ok (.Annual year))
      | none => some (.error (.invalidPeriod ("Unknown period format: " ++ s)))
    | [p0, p1] =>
      match parseI32 p0 with
      | none => some (.error (.invalidPeriod ("Invalid year in " ++ s)))
      | some year =>
        if utf8Len p1.data < 2 then
          some (.error (.invalidPeriod ("Invalid period suffix: " ++ s)))
        else if (p1.data.headD ' ').utf8Size ≠ 1 then
          none
        else
          match parseU32 ⟨p1.data.drop 1⟩ with
          | none => some (.error (.invalidPeriod ("Invalid number in period: " ++ s)))
          | some v =>
            if (p1.data.headD ' ').toUpper = 'Q' then
              if 1 ≤ v ∧ v ≤ 4 then some (.ok (.Quarterly year v))
              else some (.error (.invalidPeriod ("Quarter must be 1-4, got " ++ toString v)))
            else if (p1.data.headD ' ').toUpper = 'M' then
              if 1 ≤ v ∧ v ≤ 12 then some (.ok (.Monthly year v))
              else some (.error (.invalidPeriod ("Month must be 1-12, got " ++ toString v)))
            else if (p1.data.headD ' ').toUpper = 'W' then
              if 1 ≤ v ∧ v ≤ 53 then some (.ok (.Weekly year v))
              else some (.error (.invalidPeriod ("Week must be 1-53, got " ++ toString v)))
            else
              some (.error (.invalidPeriod ("Unknown period type in " ++ s)))
    | _ => some (.error (.invalidPeriod ("Unknown period format: " ++ s)))

/-- Parses a string into a `Period` (`Period::parse`): trims the input and
dispatches on its shape; `none` models the panic of the byte slice
`&suffix[1..]` off a character boundary. -/
def Period.parse (input : String) : Option (Except HtsError Period) :=
  parseTrimmed ⟨trimChars input.data⟩

instance {ε α : Type} [DecidableEq ε] [DecidableEq α] :
    DecidableEq (Except ε α) := fun a b =>
  match a, b with
  | .ok x, .ok y => decidable_of_iff (x = y) (by simp)
  | .error x, .error y => decidable_of_iff (x = y) (by simp)
  | .ok _, .error _ => isFalse (by simp)
  | .error _, .ok _ => isFalse (by simp)

/-! ### Hierarchical time series facade (hts.rs) -/

/-- A hierarchical time series dataset (`HierarchicalTimeSeries`): the
bottom-level data together with the derived tree and matrix, the parsed
period axis, and the time and value column names. The stored values are
modelled over `Int` like the matrix. -/
structure HierarchicalTimeSeries where
  bottom_data : DFrame
  spec : HierarchySpec
  tree : HierarchyTree
  s_matrix : SummationMatrix
  periods : List Period
  time_col : String
  value_col : String

/-- Returns the number of time periods (`n_periods`). -/
def HierarchicalTimeSeries.n_periods (h : HierarchicalTimeSeries) : Nat :=
  h.periods.length

/-- Gets the values for a specific series across all time periods
(`get_series`): looks the id up in the tree and, as the simplified
implementation in the source does, returns a zero vector of period length
without consulting the stored data. -/
def HierarchicalTimeSeries.get_series (h : HierarchicalTimeSeries)
    (series_id : String) : Option (List Int) :=
  match h.tree.get_node series_id with
  | none => none
  | some _ => some (List.replicate h.n_periods 0)

/-! ### Concrete instances used to evaluate the embedded operations -/

instance : Inhabited HierarchyTree := ⟨⟨[], 0, 0, []⟩⟩

/-- A two-row table whose node ids collide across levels: the level-one node
of the first hierarchy column value `x/y` and the level-two node of the pair
`(x, y)` both get the joined id `x/y`. -/
def dfCollide : DFrame := ⟨["A", "B"], [["x/y", "z"], ["x", "y"]]⟩

/-- Spec with two hierarchy columns for the collision table. -/
def specCollide : HierarchySpec := ⟨["A", "B"], []⟩

/-- A table where state `A` has exactly one region, so the level-one node
`A` aggregates a single bottom row without being a bottom-level node. -/
def dfNest : DFrame := ⟨["State", "Region"],
  [["A", "A1"], ["B", "B1"], ["B", "B2"]]⟩

/-- Spec with two hierarchy columns for the nesting table. -/
def specNest : HierarchySpec := ⟨["State", "Region"], []⟩

/-- The two-state, two-city, two-sector scenario table with eight distinct
bottom rows. -/
def dfScenario : DFrame := ⟨["State", "City", "Sector", "Quarter", "GDP"],
  [["A", "a1", "X", "2024 Q1", "1"], ["A", "a1", "Y", "2024 Q1", "2"],
   ["A", "a2", "X", "2024 Q1", "3"], ["A", "a2", "Y", "2024 Q1", "4"],
   ["B", "b1", "X", "2024 Q1", "5"], ["B", "b1", "Y", "2024 Q1", "6"],
   ["B", "b2", "X", "2024 Q1", "7"], ["B", "b2", "Y", "2024 Q1", "8"]]⟩

/-- Scenario spec: hierarchy State/City crossed with group Sector. -/
def specScenario : HierarchySpec := ⟨["State", "City"], ["Sector"]⟩

/-- The tree built from the nesting table, extracted from the successful
construction. -/
def tNest : HierarchyTree :=
  match HierarchyTree.from_dataframe dfNest specNest with
  | .ok t => t
  | .error _ => default

/-- A concrete hierarchical time series over the nesting table with two
periods, used to evaluate the series accessor. -/
def htsW : HierarchicalTimeSeries :=
  ⟨dfNest, specNest, tNest, SummationMatrix.from_hierarchy tNest,
   [Period.Annual 2024, Period.Annual 2025], "Quarter", "Value"⟩

/-! ## Order lemmas for the row comparison -/

lemma charListLt_irrefl : ∀ as : List Char, charListLt as as = false
  | [] => rfl
  | a :: as => by
    simp [charListLt, charListLt_irrefl as]

lemma charListLt_trans : ∀ {as bs cs : List Char},
    charListLt as bs = true → charListLt bs cs = true → charListLt as cs = true
  | [], _ :: _, _ :: _, _, _ => rfl
  | [], [], _, h1, _ => by simp [charListLt] at h1
  | [], _ :: _, [], _, h2 => by simp [charListLt] at h2
  | _ :: _, [], _, h1, _ => by simp [charListLt] at h1
  | _ :: _, _ :: _, [], _, h2 => by simp [charListLt] at h2
  | a :: as, b :: bs, c :: cs, h1, h2 => by
    simp only [charListLt, Bool.or_eq_true, Bool.and_eq_true, decide_eq_true_eq,
      beq_iff_eq] at h1 h2 ⊢
    rcases h1 with h1 | ⟨h1e, h1r⟩
    · rcases h2 with h2 | ⟨h2e, h2r⟩
      · exact Or.inl (Nat.lt_trans h1 h2)
      · exact Or.inl (h2e ▸ h1)
    · rcases h2 with h2 | ⟨h2e, h2r⟩
      · exact Or.inl (h1e ▸ h2)
      · exact Or.inr ⟨h1e.trans h2e, charListLt_trans h1r h2r⟩

lemma charListLt_conn : ∀ {as bs : List Char},
    charListLt as bs = false → charListLt bs as = false → as = bs
  | [], [], _, _ => rfl
  | [], _ :: _, h1, _ => by simp [charListLt] at h1
  | _ :: _, [], _, h2 => by simp [charListLt] at h2
  | a :: as, b :: bs, h1, h2 => by
    simp only [charListLt, Bool.or_eq_false_iff, Bool.and_eq_false_iff,
      decide_eq_false_iff_not, Nat.not_lt, beq_eq_false_iff_ne, ne_eq] at h1 h2
    have hab : a.toNat = b.toNat := Nat.le_antisymm h2.1 h1.1
    have hab2 : a = b := by
      have : Char.ofNat a.toNat = Char.ofNat b.toNat := by rw [hab]
      rwa [Char.ofNat_toNat, Char.ofNat_toNat] at this
    rcases h1.2 with h | h
    · exact absurd hab h
    · rcases h2.2 with h2b | h2b
      · exact absurd hab.symm h2b
      · exact hab2 ▸ congrArg (a :: ·) (charListLt_conn h h2b)

lemma strLtB_irrefl (a : String) : strLtB a a = false := charListLt_irrefl _

lemma strLtB_trans {a b c : String} (h1 : strLtB a b = true)
    (h2 : strLtB b c = true) : strLtB a c = true :=
  charListLt_trans h1 h2

lemma strLtB_conn {a b : String} (h1 : strLtB a b = false)
    (h2 : strLtB b a = false) : a = b := by
  cases a
  exact congrArg String.mk (charListLt_conn h1 h2)

lemma rowLeB_total : ∀ a b : List String, rowLeB a b = true ∨ rowLeB b a = true
  | [], _ => Or.inl rfl
  | _ :: _, [] => Or.inr rfl
  | a :: as, b :: bs => by
    by_cases hab : strLtB a b = true
    · exact Or.inl (by simp [rowLeB, hab])
    · by_cases hba : strLtB b a = true
      · exact Or.inr (by simp [rowLeB, hba])
      · have heq : a = b :=
          strLtB_conn (Bool.eq_false_iff.mpr hab) (Bool.eq_false_iff.mpr hba)
        subst heq
        rcases rowLeB_total as bs with h | h
        · exact Or.inl (by simp [rowLeB, h])
        · exact Or.inr (by simp [rowLeB, h])

lemma rowLeB_trans : ∀ {a b c : List String},
    rowLeB a b = true → rowLeB b c = true → rowLeB a c = true
  | [], _, _, _, _ => rfl
  | _ :: _, [], _, h1, _ => by simp [rowLeB] at h1
  | _ :: _, _ :: _, [], _, h2 => by simp [rowLeB] at h2
  | a :: as, b :: bs, c :: cs, h1, h2 => by
    simp only [rowLeB, Bool.or_eq_true, Bool.and_eq_true, beq_iff_eq] at h1 h2 ⊢
    rcases h1 with h1 | ⟨h1e, h1r⟩
    · rcases h2 with h2 | ⟨h2e, h2r⟩
      · exact Or.inl (strLtB_trans h1 h2)
      · exact Or.inl (h2e ▸ h1)
    · rcases h2 with h2 | ⟨h2e, h2r⟩
      · exact Or.inl (h1e ▸ h2)
      · exact Or.inr ⟨h1e.trans h2e, rowLeB_trans h1r h2r⟩

instance : IsTotal (List String) rowLeP := ⟨rowLeB_total⟩

instance : IsTrans (List String) rowLeP := ⟨fun _ _ _ => rowLeB_trans⟩

/-! ## Lemmas about deduplication and sorting of rows -/

lemma getCell_map (f : String → String) :
    ∀ (names : List String) (c : String), c ∈ names →
      getCell names (names.map f) c = f c
  | n :: ns, c, h => by
    rw [List.map_cons]
    unfold getCell
    by_cases hc : n = c
    · rw [if_pos hc, hc]
    · rw [if_neg hc]
      exact getCell_map f ns c (by
        rcases List.mem_cons.mp h with h1 | h1
        · exact absurd h1.symm hc
        · exact h1)

lemma joinKey_cons (x : String) {ys : List String} (hy : ys ≠ []) :
    joinKey (x :: ys) = x ++ "/" ++ joinKey ys := by
  cases ys with
  | nil => exact absurd rfl hy
  | cons y ys2 => rfl

lemma joinKey_append :
    ∀ {xs : List String} (ys : List String), xs ≠ [] → ys ≠ [] →
      joinKey (xs ++ ys) = joinKey xs ++ "/" ++ joinKey ys
  | [], _, hx, _ => absurd rfl hx
  | [x], ys, _, hy => by
    rw [List.singleton_append, joinKey_cons x hy, joinKey]
  | x1 :: x2 :: xs, ys, _, hy => by
    have h2 : (x2 :: xs) ++ ys ≠ [] := by simp
    rw [List.cons_append, joinKey_cons x1 h2,
      joinKey_cons x1 (List.cons_ne_nil x2 xs),
      joinKey_append ys (List.cons_ne_nil x2 xs) hy]
    simp [String.append_assoc]

lemma joinKey_length_append {xs : List String} (ys : List String)
    (hx : xs ≠ []) (hy : ys ≠ []) :
    (joinKey (xs ++ ys)).length =
      (joinKey xs).length + 1 + (joinKey ys).length := by
  have hsl : ("/" : String).length = 1 := rfl
  rw [joinKey_append ys hx hy]
  simp [String.length_append, hsl]

lemma joinKey_length_zero :
    ∀ {l : List String}, (joinKey l).length = 0 → l = [] ∨ l = [""]
  | [], _ => Or.inl rfl
  | [x], h => by
    rw [joinKey] at h
    refine Or.inr ?_
    have : x = "" := by
      cases x with
      | mk data =>
        cases data with
        | nil => rfl
        | cons c cs => simp [String.length, List.length] at h
    rw [this]
  | x :: y :: xs, h => by
    rw [joinKey_cons x (List.cons_ne_nil y xs)] at h
    have hsl : ("/" : String).length = 1 := rfl
    simp [String.length_append, hsl] at h

/-! ## Lemmas about level deduplication -/

lemma mem_of_mem_dedupByJoin :
    ∀ {seen : List String} {l : List (List String)} {x : List String},
      x ∈ dedupByJoin seen l → x ∈ l
  | seen, k :: ks, x, h => by
    by_cases hk : joinKey k ∈ seen
    · rw [dedupByJoin, if_pos hk] at h
      exact List.mem_cons_of_mem _ (mem_of_mem_dedupByJoin h)
    · rw [dedupByJoin, if_neg hk] at h
      rcases List.mem_cons.mp h with rfl | h
      · exact List.mem_cons_self _ _
      · exact List.mem_cons_of_mem _ (mem_of_mem_dedupByJoin h)

lemma key_not_seen_of_mem_dedupByJoin :
    ∀ {seen : List String} {l : List (List String)} {x : List String},
      x ∈ dedupByJoin seen l → joinKey x ∉ seen
  | seen, k :: ks, x, h => by
    by_cases hk : joinKey k ∈ seen
    · rw [dedupByJoin, if_pos hk] at h
      exact key_not_seen_of_mem_dedupByJoin h
    · rw [dedupByJoin, if_neg hk] at h
      rcases List.mem_cons.mp h with rfl | h
      · exact hk
      · have := key_not_seen_of_mem_dedupByJoin h
        exact fun hmem => this (List.mem_cons_of_mem _ hmem)

lemma dedupByJoin_keys_pairwise :
    ∀ (seen : List String) (l : List (List String)),
      (dedupByJoin seen l).Pairwise (fun a b => joinKey a ≠ joinKey b)
  | _, [] => List.Pairwise.nil
  | seen, k :: ks => by
    by_cases hk : joinKey k ∈ seen
    · rw [dedupByJoin, if_pos hk]
      exact dedupByJoin_keys_pairwise seen ks
    · rw [dedupByJoin, if_neg hk]
      refine List.Pairwise.cons ?_ (dedupByJoin_keys_pairwise _ ks)
      intro y hy
      have hns := key_not_seen_of_mem_dedupByJoin hy
      intro he
      exact hns (by rw [← he]; exact List.mem_cons_self _ _)

lemma nodup_dedupByJoin (seen : List String) (l : List (List String)) :
    (dedupByJoin seen l).Nodup :=
  (dedupByJoin_keys_pairwise seen l).imp (fun h he => h (congrArg joinKey he))

lemma dedupByJoin_append_singleton :
    ∀ {seen : List String} {l : List (List String)} {B : List String},
      (∀ x ∈ l, joinKey x ≠ joinKey B) → joinKey B ∉ seen →
      dedupByJoin seen (l ++ [B]) = dedupByJoin seen l ++ [B]
  | seen, [], B, _, hB => by
    simp [dedupByJoin, hB]
  | seen, k :: ks, B, hl, hB => by
    by_cases hk : joinKey k ∈ seen
    · rw [List.cons_append, dedupByJoin, if_pos hk, dedupByJoin, if_pos hk]
      exact dedupByJoin_append_singleton
        (fun x hx => hl x (List.mem_cons_of_mem _ hx)) hB
    · rw [List.cons_append, dedupByJoin, if_neg hk, dedupByJoin, if_neg hk,
        List.cons_append]
      congr 1
      refine dedupByJoin_append_singleton
        (fun x hx => hl x (List.mem_cons_of_mem _ hx)) ?_
      intro hmem
      rcases List.mem_cons.mp hmem with he | he
      · exact hl k (List.mem_cons_self _ _) he.symm
      · exact hB he

/-! ## Lemmas about the stable sort by column count -/

lemma orderedInsert_filter_len_eq {x : List String} {n : Nat}
    (hx : x.length = n) :
    ∀ l : List (List String),
      (List.orderedInsert lenLeP x l).filter (fun a => a.length == n) =
        x :: l.filter (fun a => a.length == n)
  | [] => by simp [List.orderedInsert, List.filter_cons, hx]
  | y :: ys => by
    rw [List.orderedInsert]
    by_cases hle : lenLeP x y
    · rw [if_pos hle, List.filter_cons]
      simp [hx]
    · rw [if_neg hle]
      have hy : (y.length == n) = false := by
        have : y.length < x.length := Nat.lt_of_not_le hle
        simp only [beq_eq_false_iff_ne, ne_eq]
        omega
      rw [List.filter_cons, hy, orderedInsert_filter_len_eq hx ys,
        List.filter_cons, hy]
      simp

lemma orderedInsert_filter_len_ne {x : List String} {n : Nat}
    (hx : x.length ≠ n) :
    ∀ l : List (List String),
      (List.orderedInsert lenLeP x l).filter (fun a => a.length == n) =
        l.filter (fun a => a.length == n)
  | [] => by simp [List.orderedInsert, List.filter_cons, hx]
  | y :: ys => by
    rw [List.orderedInsert]
    by_cases hle : lenLeP x y
    · rw [if_pos hle, List.filter_cons]
      simp [hx]
    · rw [if_neg hle]
      rw [List.filter_cons, List.filter_cons, orderedInsert_filter_len_ne hx ys]

lemma sortLevels_filter_len (n : Nat) :
    ∀ l : List (List String),
      (List.insertionSort lenLeP l).filter (fun a => a.length == n) =
        l.filter (fun a => a.length == n)
  | [] => rfl
  | x :: xs => by
    rw [List.insertionSort]
    by_cases hx : x.length = n
    · rw [orderedInsert_filter_len_eq hx, sortLevels_filter_len n xs,
        List.filter_cons]
      simp [hx]
    · rw [orderedInsert_filter_len_ne hx, sortLevels_filter_len n xs,
        List.filter_cons]
      simp [hx]

/-! ## Head and last of a list sorted by column count -/

lemma head_eq_nil_of_sorted {L : List (List String)}
    (hs : L.Pairwise lenLeP) (hmem : ([] : List String) ∈ L) :
    L.head? = some [] := by
  cases L with
  | nil => exact absurd hmem (List.not_mem_nil _)
  | cons h t =>
    cases h with
    | nil => rfl
    | cons a as =>
      rcases List.mem_cons.mp hmem with he | he
      · exact absurd he.symm (List.cons_ne_nil a as)
      · have := (List.pairwise_cons.mp hs).1 [] he
        simp [lenLeP] at this

lemma getLast_of_unique_max :
    ∀ {L : List (List String)} {B : List String}, L.Pairwise lenLeP → B ∈ L →
      (∀ l ∈ L, l ≠ B → l.length < B.length) → L.getLast? = some B
  | [], B, _, hmem, _ => absurd hmem (List.not_mem_nil _)
  | [x], B, _, hmem, _ => by
    rcases List.mem_cons.mp hmem with he | he
    · rw [he]
      rfl
    · exact absurd he (List.not_mem_nil _)
  | x :: y :: t, B, hs, hmem, hmax => by
    rw [List.getLast?_cons_cons]
    have htail : B ∈ y :: t := by
      rcases List.mem_cons.mp hmem with he | he
      · by_cases hyB : y = B
        · exact hyB ▸ List.mem_cons_self _ _
        · have h1 : y.length < B.length :=
            hmax y (List.mem_cons_of_mem _ (List.mem_cons_self _ _)) hyB
          have h2 : B.length ≤ y.length := by
            have := (List.pairwise_cons.mp hs).1 y (List.mem_cons_self _ _)
            exact he ▸ this
          omega
      · exact he
    exact getLast_of_unique_max (List.pairwise_cons.mp hs).2 htail
      (fun l hl => hmax l (List.mem_cons_of_mem _ hl))

/-! ## Structure of the raw level list -/

lemma mem_rawLevels {s : HierarchySpec} {l : List String}
    (h : l ∈ rawLevels s) :
    l = [] ∨
    (∃ h1, 0 < h1 ∧ h1 ≤ s.hierarchy.length ∧ l = s.hierarchy.take h1) ∨
    (s.groups ≠ [] ∧ 0 < s.hierarchy.length ∧ l = s.groups) ∨
    (∃ h1, 0 < h1 ∧ h1 < s.hierarchy.length ∧ s.groups ≠ [] ∧
      l = s.hierarchy.take h1 ++ s.groups) := by
  rcases List.mem_append.mp h with h | h
  · left
    simpa using h
  · rcases List.mem_flatMap.mp h with ⟨hh, hmem, hl⟩
    rw [List.mem_range] at hmem
    rcases List.mem_append.mp hl with h2 | h2
    · by_cases hpos : 0 < hh
      · rw [if_pos hpos] at h2
        exact Or.inr (Or.inl ⟨hh, hpos, by omega, (List.mem_singleton.mp h2)⟩)
      · rw [if_neg hpos] at h2
        exact absurd h2 (List.not_mem_nil _)
    · by_cases hcond : (!s.groups.isEmpty : Bool) ∧ hh < s.hierarchy.length
      · rw [if_pos hcond] at h2
        have hgne : s.groups ≠ [] := by
          have := hcond.1
          simpa [List.isEmpty_iff] using this
        rcases List.mem_append.mp h2 with h3 | h3
        · by_cases hz : hh = 0
          · rw [if_pos hz] at h3
            exact Or.inr (Or.inr (Or.inl
              ⟨hgne, by omega, List.mem_singleton.mp h3⟩))
          · rw [if_neg hz] at h3
            exact absurd h3 (List.not_mem_nil _)
        · by_cases hc2 : (!(s.hierarchy.take hh ++ s.groups).isEmpty : Bool) ∧ 0 < hh
          · rw [if_pos hc2] at h3
            exact Or.inr (Or.inr (Or.inr
              ⟨hh, hc2.2, hcond.2, hgne, List.mem_singleton.mp h3⟩))
          · rw [if_neg hc2] at h3
            exact absurd h3 (List.not_mem_nil _)
      · rw [if_neg hcond] at h2
        exact absurd h2 (List.not_mem_nil _)

lemma all_columns_length (s : HierarchySpec) :
    s.all_columns.length = s.hierarchy.length + s.groups.length :=
  List.length_append _ _

lemma rawLevels_length_lt {s : HierarchySpec} {l : List String}
    (h : l ∈ rawLevels s) :
    l = s.all_columns ∨ l.length < s.all_columns.length := by
  rcases mem_rawLevels h with rfl | ⟨h1, h1p, h1le, rfl⟩ | ⟨hg, hk, rfl⟩ |
    ⟨h1, h1p, h1lt, hg, rfl⟩
  · by_cases hall : s.all_columns = []
    · exact Or.inl hall.symm
    · exact Or.inr (by simpa [List.length_pos] using hall)
  · by_cases hcase : h1 = s.hierarchy.length ∧ s.groups = []
    · refine Or.inl ?_
      rw [hcase.1, List.take_length, HierarchySpec.all_columns, hcase.2,
        List.append_nil]
    · refine Or.inr ?_
      have hlt : (s.hierarchy.take h1).length = h1 :=
        (List.length_take h1 s.hierarchy).trans (min_eq_left h1le)
      rw [hlt, all_columns_length]
      rcases Nat.lt_or_ge h1 s.hierarchy.length with hc | hc
      · omega
      · have he : h1 = s.hierarchy.length := le_antisymm h1le hc
        have hgne : s.groups ≠ [] := fun hn => hcase ⟨he, hn⟩
        have := List.length_pos.mpr hgne
        omega
  · refine Or.inr ?_
    rw [all_columns_length]
    omega
  · refine Or.inr ?_
    have hlt : (s.hierarchy.take h1).length = h1 :=
      (List.length_take h1 s.hierarchy).trans (min_eq_left (le_of_lt h1lt))
    rw [List.length_append, hlt, all_columns_length]
    omega

lemma joinKey_all_pos {s : HierarchySpec} (hne : s.all_columns ≠ [])
    (hne1 : s.all_columns ≠ [""]) :
    0 < (joinKey s.all_columns).length := by
  rcases Nat.eq_zero_or_pos (joinKey s.all_columns).length with h0 | hp
  · rcases joinKey_length_zero h0 with h | h
    · exact absurd h hne
    · exact absurd h hne1
  · exact hp

lemma rawLevels_joinKey_lt {s : HierarchySpec} {l : List String}
    (hne : s.all_columns ≠ []) (hne1 : s.all_columns ≠ [""])
    (h : l ∈ rawLevels s) (hlne : l ≠ s.all_columns) :
    (joinKey l).length < (joinKey s.all_columns).length := by
  rcases mem_rawLevels h with rfl | ⟨h1, h1p, h1le, rfl⟩ | ⟨hg, hk, rfl⟩ |
    ⟨h1, h1p, h1lt, hg, rfl⟩
  · simpa [joinKey] using joinKey_all_pos hne hne1
  · by_cases hcase : h1 = s.hierarchy.length ∧ s.groups = []
    · exact absurd (by rw [hcase.1, List.take_length, HierarchySpec.all_columns,
        hcase.2, List.append_nil]) hlne
    · have hHne : s.hierarchy ≠ [] := by
        intro he
        rw [he] at h1le
        simp at h1le
        omega
      have htne : s.hierarchy.take h1 ≠ [] := by
        simp [List.take_eq_nil_iff, Nat.pos_iff_ne_zero.mp h1p, hHne]
      have hrest : s.hierarchy.drop h1 ++ s.groups ≠ [] := by
        intro hcon
        rcases List.append_eq_nil.mp hcon with ⟨hd, hg2⟩
        rcases Nat.lt_or_ge h1 s.hierarchy.length with hc | hc
        · have := List.drop_eq_nil_iff.mp hd
          omega
        · exact hcase ⟨le_antisymm h1le hc, hg2⟩
      have hdecomp : s.all_columns =
          s.hierarchy.take h1 ++ (s.hierarchy.drop h1 ++ s.groups) := by
        rw [HierarchySpec.all_columns, ← List.append_assoc,
          List.take_append_drop]
      rw [hdecomp, joinKey_length_append _ htne hrest]
      omega
  · have hHne : s.hierarchy ≠ [] := by
      intro he
      rw [he] at hk
      simp at hk
    have hgne : s.groups ≠ [] := hg
    have : s.all_columns = s.hierarchy ++ s.groups := rfl
    rw [this, joinKey_length_append _ hHne hgne]
    omega
  · have hHne : s.hierarchy.take h1 ≠ [] := by
      have : s.hierarchy ≠ [] := by
        intro he
        rw [he] at h1lt
        simp at h1lt
      simp [List.take_eq_nil_iff, Nat.pos_iff_ne_zero.mp h1p, this]
    have hdne : s.hierarchy.drop h1 ≠ [] := by
      simp [List.drop_eq_nil_iff]
      omega
    have hrest : s.hierarchy.drop h1 ++ s.groups ≠ [] := by
      intro hcon
      exact hdne (List.append_eq_nil.mp hcon).1
    have hdecomp : s.all_columns =
        s.hierarchy.take h1 ++ (s.hierarchy.drop h1 ++ s.groups) := by
      rw [HierarchySpec.all_columns, ← List.append_assoc,
        List.take_append_drop]
    rw [hdecomp, joinKey_length_append _ hHne hrest,
      joinKey_length_append _ hdne hg, joinKey_length_append _ hHne hg]
    omega

/-! ## Decomposition of the level list around the bottom level -/

lemma rawLevels_groups_nil (H : List String) :
    rawLevels ⟨H, []⟩ =
      [[]] ++ (List.range (H.length + 1)).flatMap
        (fun h => if 0 < h then [H.take h] else []) := by
  simp only [rawLevels]
  refine congrArg ([[]] ++ ·) ?_
  refine congrArg (List.flatMap (List.range (H.length + 1))) ?_
  funext h
  simp

lemma withBottom_decomp {s : HierarchySpec} (hne : s.all_columns ≠ []) :
    ∃ P, withBottom s = P ++ [s.all_columns] ∧
      ∀ l ∈ P, l ∈ rawLevels s ∧ l ≠ s.all_columns := by
  by_cases hmem : s.all_columns ∈ rawLevels s
  · have hshape : s.groups = [] ∧ 0 < s.hierarchy.length := by
      rcases mem_rawLevels hmem with h0 | ⟨h1, h1p, h1le, he⟩ | ⟨hg, hk, he⟩ |
        ⟨h1, h1p, h1lt, hg, he⟩
      · exact absurd h0 hne
      · have hlen := congrArg List.length he
        rw [all_columns_length, List.length_take,
          min_eq_left h1le] at hlen
        constructor
        · have : s.groups.length = 0 := by omega
          exact List.length_eq_zero.mp this
        · omega
      · have hlen := congrArg List.length he
        rw [all_columns_length] at hlen
        have := List.length_pos.mpr hg
        omega
      · have hlen := congrArg List.length he
        rw [all_columns_length, List.length_append, List.length_take,
          min_eq_left (le_of_lt h1lt)] at hlen
        omega
    obtain ⟨hgnil, hkpos⟩ := hshape
    obtain ⟨H, G⟩ := s
    simp only at hgnil hkpos
    subst hgnil
    have hall : HierarchySpec.all_columns ⟨H, []⟩ = H := by
      simp [HierarchySpec.all_columns]
    refine ⟨[[]] ++ (List.range H.length).flatMap
      (fun h => if 0 < h then [H.take h] else []), ?_, ?_⟩
    · simp only [withBottom]
      rw [if_pos hmem, rawLevels_groups_nil H, List.range_succ,
        List.flatMap_append, hall]
      have hfk : (List.flatMap [H.length]
          (fun h => if 0 < h then [H.take h] else [])) = [H] := by
        simp [List.flatMap, hkpos, List.take_length]
      rw [hfk, List.append_assoc]
    · intro l hl
      have hmemraw : l ∈ rawLevels ⟨H, []⟩ := by
        rw [rawLevels_groups_nil H, List.range_succ, List.flatMap_append]
        rcases List.mem_append.mp hl with h2 | h2
        · exact List.mem_append.mpr (Or.inl h2)
        · exact List.mem_append.mpr
            (Or.inr (List.mem_append.mpr (Or.inl h2)))
      refine ⟨hmemraw, ?_⟩
      rcases List.mem_append.mp hl with h2 | h2
      · intro he
        rw [List.mem_singleton.mp h2] at he
        exact hne he.symm
      · rcases List.mem_flatMap.mp h2 with ⟨hh, hhmem, hhl⟩
        rw [List.mem_range] at hhmem
        by_cases hpos : 0 < hh
        · rw [if_pos hpos] at hhl
          rw [List.mem_singleton.mp hhl]
          intro he
          have := congrArg List.length he
          rw [List.length_take, min_eq_left (le_of_lt hhmem), hall] at this
          omega
        · rw [if_neg hpos] at hhl
          exact absurd hhl (List.not_mem_nil _)
  · refine ⟨rawLevels s, ?_, ?_⟩
    · simp only [withBottom]
      rw [if_neg hmem]
    · intro l hl
      exact ⟨hl, fun he => hmem (he ▸ hl)⟩

lemma dedup_withBottom_decomp {s : HierarchySpec}
    (hne : s.all_columns ≠ []) (hne1 : s.all_columns ≠ [""]) :
    ∃ D, dedupByJoin [] (withBottom s) = D ++ [s.all_columns] ∧
      ∀ l ∈ D, l.length < s.all_columns.length := by
  obtain ⟨P, hP, hPmem⟩ := withBottom_decomp hne
  rw [hP, dedupByJoin_append_singleton
    (fun x hx => Nat.ne_of_lt (rawLevels_joinKey_lt hne hne1
      (hPmem x hx).1 (hPmem x hx).2) ∘ congrArg String.length)
    (List.not_mem_nil _)]
  refine ⟨dedupByJoin [] P, rfl, ?_⟩
  intro l hl
  have hmem := mem_of_mem_dedupByJoin hl
  rcases rawLevels_length_lt (hPmem l hmem).1 with he | hlt
  · exact absurd he (hPmem l hmem).2
  · exact hlt

/-! ## Main facts about level_combinations -/

lemma withBottom_cons (s : HierarchySpec) :
    ∃ rest, withBottom s = [] :: rest := by
  simp only [withBottom]
  by_cases hmem : s.all_columns ∈ rawLevels s
  · rw [if_pos hmem]
    exact ⟨_, rfl⟩
  · rw [if_neg hmem]
    exact ⟨_, rfl⟩

lemma mem_nil_dedup_withBottom (s : HierarchySpec) :
    ([] : List String) ∈ dedupByJoin [] (withBottom s) := by
  obtain ⟨rest, hr⟩ := withBottom_cons s
  rw [hr, dedupByJoin, if_neg (List.not_mem_nil _)]
  exact List.mem_cons_self _ _

lemma level_combinations_sorted (s : HierarchySpec) :
    s.level_combinations.Pairwise lenLeP :=
  List.sorted_insertionSort lenLeP _

lemma level_combinations_perm (s : HierarchySpec) :
    s.level_combinations.Perm (dedupByJoin [] (withBottom s)) :=
  List.perm_insertionSort _ _

lemma level_combinations_nodup (s : HierarchySpec) :
    s.level_combinations.Nodup :=
  ((level_combinations_perm s).nodup_iff).mpr (nodup_dedupByJoin _ _)

lemma mem_nil_level_combinations (s : HierarchySpec) :
    ([] : List String) ∈ s.level_combinations :=
  (List.mem_insertionSort _).mpr (mem_nil_dedup_withBottom s)

lemma level_combinations_head (s : HierarchySpec) :
    s.level_combinations.head? = some [] :=
  head_eq_nil_of_sorted (level_combinations_sorted s)
    (mem_nil_level_combinations s)

lemma level_combinations_filter (s : HierarchySpec) (n : Nat) :
    s.level_combinations.filter (fun a => a.length == n) =
      (dedupByJoin [] (withBottom s)).filter (fun a => a.length == n) :=
  sortLevels_filter_len n _

lemma level_combinations_getLast {s : HierarchySpec}
    (hne1 : s.all_columns ≠ [""]) :
    s.level_combinations.getLast? = some s.all_columns := by
  by_cases hne : s.all_columns = []
  · obtain ⟨H, G⟩ := s
    have hsplit := List.append_eq_nil.mp hne
    obtain ⟨hh, hg⟩ := hsplit
    simp only at hh hg
    subst hh
    subst hg
    rfl
  · obtain ⟨D, hD, hlen⟩ := dedup_withBottom_decomp hne hne1
    unfold HierarchySpec.level_combinations
    rw [hD]
    apply getLast_of_unique_max (List.sorted_insertionSort lenLeP _)
    · exact (List.mem_insertionSort _).mpr
        (List.mem_append.mpr (Or.inr (List.mem_singleton.mpr rfl)))
    · intro l hl hlne
      rcases List.mem_append.mp ((List.mem_insertionSort _).mp hl) with h2 | h2
      · exact hlen l h2
      · exact absurd (List.mem_singleton.mp h2) hlne

/-! ## Characterization of node construction -/

lemma buildNode_id (bottom : DFrame) (m lvl : Nat) (lc : List String)
    (r0 : Row) :
    (buildNode bottom m lvl lc (projCells bottom.cols lc r0)).id =
      joinKey (projCells bottom.cols lc r0) := by
  unfold buildNode
  exact congrArg joinKey
    (List.map_congr_left (fun c hc =>
      getCell_map (fun c2 => getCell bottom.cols r0 c2) lc c hc))

lemma buildLevelNodes_members_shape {bottom : DFrame} {m lvl : Nat}
    {lc : List String} :
    ∀ nd ∈ buildLevelNodes bottom m lvl lc,
      ∃ p : Nat → Bool, nd.aggregates_from = (List.range m).filter p := by
  intro nd hnd
  unfold buildLevelNodes at hnd
  by_cases hlc : lc.isEmpty
  · rw [if_pos hlc] at hnd
    rw [List.mem_singleton.mp hnd]
    exact ⟨fun _ => true, (List.filter_true _).symm⟩
  · rw [if_neg hlc] at hnd
    rcases List.mem_map.mp hnd with ⟨r, _, rfl⟩
    exact ⟨_, rfl⟩

lemma sum_map_ite_filter (f : Nat → Int) (p : Nat → Bool) :
    ∀ l : List Nat,
      (l.map (fun j => if p j then f j else 0)).sum =
        ((l.filter p).map f).sum
  | [] => rfl
  | x :: xs => by
    by_cases hp : p x <;>
      simp [List.filter_cons, hp, sum_map_ite_filter f p xs]

lemma map_getD_range : ∀ b : List Int,
    (List.range b.length).map (fun j => b.getD j 0) = b
  | [] => rfl
  | x :: xs => by
    rw [List.length_cons, List.range_succ_eq_map, List.map_cons, List.map_map]
    refine congrArg (x :: ·) ?_
    have : ((fun j => List.getD (x :: xs) j 0) ∘ Nat.succ) =
        (fun j => xs.getD j 0) := by
      funext j
      rfl
    rw [this, map_getD_range xs]

/-! ## Facts about the bottom frame -/

lemma bottomFrame_cols (df : DFrame) (spec : HierarchySpec) :
    (bottomFrame df spec).cols = spec.all_columns := rfl

lemma from_dataframe_ok {df : DFrame} {spec : HierarchySpec} {t : HierarchyTree}
    (h : HierarchyTree.from_dataframe df spec = .ok t) :
    t.nodes = spec.level_combinations.enum.flatMap
      (fun p => buildLevelNodes (bottomFrame df spec)
        (bottomFrame df spec).rows.length p.1 p.2) ∧
    t.n_bottom = (bottomFrame df spec).rows.length ∧
    t.n_levels = spec.level_combinations.length := by
  unfold HierarchyTree.from_dataframe at h
  cases hfm : firstMissing spec.all_columns df.cols with
  | some c =>
    rw [hfm] at h
    simp at h
  | none =>
    rw [hfm] at h
    have h2 := Except.ok.inj h
    rw [← h2]
    exact ⟨rfl, rfl, rfl⟩

lemma members_nodup {bottom : DFrame} {m lvl : Nat} {lc : List String} :
    ∀ nd ∈ buildLevelNodes bottom m lvl lc, nd.aggregates_from.Nodup := by
  intro nd hnd
  obtain ⟨p, hp⟩ := buildLevelNodes_members_shape nd hnd
  rw [hp]
  exact (List.nodup_range m).filter p

lemma parse_range {s : String} {p : Period}
    (h : Period.parse s = some (.ok p)) :
    (∀ y k, p = .Quarterly y k → 1 ≤ k ∧ k ≤ 4) ∧
    (∀ y k, p = .Monthly y k → 1 ≤ k ∧ k ≤ 12) ∧
    (∀ y k, p = .Weekly y k → 1 ≤ k ∧ k ≤ 53) := by
  unfold Period.parse parseTrimmed at h
  repeat' split at h
  all_goals try exact (Option.noConfusion h)
  all_goals try exact (Except.noConfusion (Option.some.inj h))
  all_goals
    cases Except.ok.inj (Option.some.inj h)
    refine ⟨fun y k he => ?_, fun y k he => ?_, fun y k he => ?_⟩ <;>
      cases he <;> omega

lemma parse_error_kind {s : String} {e : HtsError}
    (h : Period.parse s = some (.error e)) :
    ∃ m, e = .invalidPeriod m := by
  unfold Period.parse parseTrimmed at h
  repeat' split at h
  all_goals try exact (Option.noConfusion h)
  all_goals first
    | exact (Except.noConfusion (Option.some.inj h))
    | exact ⟨_, (Except.error.inj (Option.some.inj h)).symm⟩

lemma parse_none_shape {s : String} (h : Period.parse s = none) :
    ∃ p0 p1, splitWs (String.mk (trimChars s.data)) = [p0, p1] ∧
      ¬ utf8Len p1.data < 2 ∧ (p1.data.headD ' ').utf8Size ≠ 1 := by
  unfold Period.parse parseTrimmed at h
  repeat' split at h
  all_goals try exact (Option.noConfusion h)
  exact ⟨_, _, by assumption, by assumption, by assumption⟩

/-! ## Exactness of the binary64 model in the representable range -/

lemma fRound_exact {n : Int} (h : n.natAbs ≤ 2 ^ 53) : fRound n = n := by
  unfold fRound
  rw [if_pos h]

lemma fadd_exact {a b : Int} (h : (a + b).natAbs ≤ 2 ^ 53) :
    fadd a b = a + b := fRound_exact h

lemma foldl_fadd_exact : ∀ (l : List Int) (acc : Int),
    acc.natAbs + (l.map Int.natAbs).sum ≤ 2 ^ 53 →
    l.foldl fadd acc = acc + l.sum
  | [], acc, _ => by simp
  | x :: xs, acc, h => by
    have hsum : ((x :: xs).map Int.natAbs).sum =
        x.natAbs + (xs.map Int.natAbs).sum := by
      rw [List.map_cons, List.sum_cons]
    rw [hsum] at h
    have habs : (acc + x).natAbs ≤ acc.natAbs + x.natAbs :=
      Int.natAbs_add_le acc x
    have hax : (acc + x).natAbs ≤ 2 ^ 53 := by omega
    have hrec : (acc + x).natAbs + (xs.map Int.natAbs).sum ≤ 2 ^ 53 := by
      omega
    rw [List.foldl_cons, fadd_exact hax,
      foldl_fadd_exact xs (acc + x) hrec, List.sum_cons]
    ring

lemma natAbs_ite_mul (c : Prop) [inst : Decidable c] (x : Int) :
    ((if c then (1 : Int) else 0) * x).natAbs ≤ x.natAbs := by
  by_cases h : c
  · rw [if_pos h, one_mul]
  · rw [if_neg h, zero_mul]
    exact Nat.zero_le _

lemma map_natAbs_getD_range (b : List Int) :
    (List.range b.length).map (fun j => (b.getD j 0).natAbs) =
      b.map Int.natAbs := by
  have h := congrArg (List.map Int.natAbs) (map_getD_range b)
  rw [List.map_map] at h
  exact h

/-! ## Claims -/

/-- C1: the claim states that `HierarchyTree::from_dataframe` detects
node-id collisions and fails with a hierarchy-construction error. The code
does not: on a table where the level-one node of value `x/y` and the
level-two node of the pair `(x, y)` both produce the id `x/y`, construction
returns Ok, both nodes carry the same id, and the lookup index silently
keeps only the later registration (index 3, shadowing index 2). -/
theorem claim_C1_collision_silently_overwritten :
    (HierarchyTree.from_dataframe dfCollide specCollide).toOption.map
      (fun t => ((t.nodes.map Node.id).count "x/y",
                 List.lookup "x/y" t.id_to_index,
                 (t.nodes.getD 2 default).id,
                 (t.nodes.getD 2 default).level,
                 (t.nodes.getD 3 default).id,
                 (t.nodes.getD 3 default).level)) =
      some (2, some 3, "x/y", 1, "x/y", 2) := by
  decide

/-- C5 counterexample: for the hierarchy list consisting of the single
empty-string column name, the joined key of the bottom level coincides with
the key of the total level, so deduplication removes the bottom level: the
result is just the total level and its last element is not the bottom level
`H ++ G`. -/
theorem claim_C5_counterexample :
    (HierarchySpec.mk [""] []).level_combinations = [[]] ∧
    (HierarchySpec.mk [""] []).all_columns = [""] ∧
    (HierarchySpec.mk [""] []).level_combinations.getLast? ≠
      some ((HierarchySpec.mk [""] []).all_columns) := by
  decide

/-- C8: for the scenario with hierarchy `[State, City]`, group `[Sector]`
and eight distinct bottom rows (two states times two cities times two
sectors), the tree has 21 nodes, the summation matrix has shape (21, 8),
its first row is labelled `Total`, and aggregating the all-ones vector of
length 8 yields 8 at the total row. -/
theorem claim_C8_scenario :
    (HierarchyTree.from_dataframe dfScenario specScenario).toOption.map
      (fun t =>
        (t.n_series,
         t.n_bottom,
         (SummationMatrix.from_hierarchy t).shape,
         (SummationMatrix.from_hierarchy t).row_labels.getD 0 "",
         ((SummationMatrix.from_hierarchy t).aggregate
           (List.replicate 8 1)).map (fun res => res.getD 0 0))) =
      some (21, 8, (21, 8), "Total", some 8) := by
  decide

/-- C9 counterexample: the claim asserts that every input matching none
of the five recognized shapes yields an invalid-period-format error. The
input `1998 é5` matches none of them, but on it the byte slice
`&suffix[1..]` of the second token cuts through the two-byte character é
(byte index 1 is not a character boundary), so `Period::parse` panics
instead of returning an error: the byte-length guard passes because `é5`
occupies three bytes. The panic is modelled as `none`, which is not an
error value. -/
theorem claim_C9_counterexample :
    Period.parse "1998 é5" = none ∧
    splitWs "1998 é5" = ["1998", "é5"] ∧
    utf8Len ("é5" : String).data = 3 ∧
    Char.utf8Size 'é' = 2 ∧
    ∀ e, Period.parse "1998 é5" ≠ some (Except.error e) := by
  refine ⟨by decide, by decide, by decide, by decide, ?_⟩
  intro e h
  rw [show Period.parse "1998 é5" = none from by decide] at h
  exact Option.noConfusion h

/-- C9 (amended): `Period::parse` returns Quarterly(1998, 1) for
`1998 Q1`, returns Monthly(2024, 12) for `2024 m12` (case-insensitive
indicator), and returns an invalid-period-format error for `1998 Q5`.
For every input, the result is a successfully parsed period, an
invalid-period-format error (never any other error kind), or the panic
of the byte slice `&suffix[1..]` (modelled as `none`); the panic occurs
only on inputs whose trimmed form splits into exactly two
whitespace-separated tokens with a second token of at least two bytes
whose first character occupies more than one byte. Every successful
parse of a quarterly, monthly or weekly period has its numeric component
within the valid range of the frequency (1..4, 1..12, 1..53). -/
theorem claim_C9_amended :
    Period.parse "1998 Q1" = some (.ok (.Quarterly 1998 1)) ∧
    Period.parse "2024 m12" = some (.ok (.Monthly 2024 12)) ∧
    (∃ m, Period.parse "1998 Q5" = some (.error (.invalidPeriod m))) ∧
    (∀ s, Period.parse s = none ∨
      (∃ p, Period.parse s = some (.ok p)) ∨
      (∃ m, Period.parse s = some (.error (.invalidPeriod m)))) ∧
    (∀ s, Period.parse s = none →
      ∃ p0 p1, splitWs (String.mk (trimChars s.data)) = [p0, p1] ∧
        ¬ utf8Len p1.data < 2 ∧ (p1.data.headD ' ').utf8Size ≠ 1) ∧
    (∀ s y k, Period.parse s = some (.ok (.Quarterly y k)) →
      1 ≤ k ∧ k ≤ 4) ∧
    (∀ s y k, Period.parse s = some (.ok (.Monthly y k)) →
      1 ≤ k ∧ k ≤ 12) ∧
    (∀ s y k, Period.parse s = some (.ok (.Weekly y k)) →
      1 ≤ k ∧ k ≤ 53) := by
  refine ⟨by decide, by decide,
    ⟨"Quarter must be 1-4, got 5", by decide⟩, ?_, ?_, ?_, ?_, ?_⟩
  · intro s
    match hr : Period.parse s with
    | none => exact Or.inl rfl
    | some (.ok p) => exact Or.inr (Or.inl ⟨p, rfl⟩)
    | some (.error e) =>
      obtain ⟨m, hm⟩ := parse_error_kind hr
      exact Or.inr (Or.inr ⟨m, by rw [hm]⟩)
  · exact fun s h => parse_none_shape h
  · exact fun s y k h => (parse_range h).1 y k rfl
  · exact fun s y k h => (parse_range h).2.1 y k rfl
  · exact fun s y k h => (parse_range h).2.2 y k rfl

/-- C9 witness: the range conclusion evaluated at the concrete quarterly
input. -/
theorem claim_C9_witness : 1 ≤ 1 ∧ 1 ≤ 4 :=
  claim_C9_amended.2.2.2.2.2.1 "1998 Q1" 1998 1 (by decide)

/-- C10: `get_series` returns, for every id present in the tree lookup, a
vector of length `n_periods()` whose entries are all zero regardless of the
stored data, and returns none for ids absent from the tree; it never
returns the actual stored values. -/
theorem claim_C10_get_series (h : HierarchicalTimeSeries) (sid : String) :
    (∀ nd, h.tree.get_node sid = some nd →
      h.get_series sid = some (List.replicate h.n_periods 0)) ∧
    (h.tree.get_node sid = none → h.get_series sid = none) ∧
    (∀ v, h.get_series sid = some v →
      v.length = h.n_periods ∧ ∀ x ∈ v, x = 0) := by
  refine ⟨?_, ?_, ?_⟩
  · intro nd hnd
    unfold HierarchicalTimeSeries.get_series
    rw [hnd]
  · intro hnone
    unfold HierarchicalTimeSeries.get_series
    rw [hnone]
  · intro v hv
    unfold HierarchicalTimeSeries.get_series at hv
    cases hnd : h.tree.get_node sid with
    | none => rw [hnd] at hv; cases hv
    | some nd =>
      rw [hnd] at hv
      have hv2 := Option.some.inj hv
      rw [← hv2]
      exact ⟨List.length_replicate _ _,
        fun x hx => List.eq_of_mem_replicate hx⟩

/-- C10 witness: the zero vector returned for the id `Total` of the
concrete series has length two and all entries zero. -/
theorem claim_C10_witness :
    (List.replicate 2 (0 : Int)).length = htsW.n_periods ∧
    ∀ x ∈ List.replicate 2 (0 : Int), x = 0 :=
  (claim_C10_get_series htsW "Total").2.2 (List.replicate 2 0) (by decide)

/-- C5 (amended): for every hierarchy column list `H` and group column
list `G`, `level_combinations` is total and pure, its result contains the
empty (total) level and starts with it, is duplicate-free under
element-wise equality, is sorted ascending by column count with ties kept
in the order of the deduplicated emission list, and its last element is
the full bottom level `H ++ G` whenever `H ++ G` is not the single
empty-string column name (in that degenerate case the joined key of the
bottom level collides with the total level and the bottom level is
deduplicated away). -/
theorem claim_C5_amended (H G : List String) :
    ([] ∈ (HierarchySpec.mk H G).level_combinations) ∧
    (HierarchySpec.mk H G).level_combinations.head? = some [] ∧
    (HierarchySpec.mk H G).level_combinations.Nodup ∧
    (HierarchySpec.mk H G).level_combinations.Pairwise
      (fun a b => a.length ≤ b.length) ∧
    (∀ n : Nat, (HierarchySpec.mk H G).level_combinations.filter
        (fun a => a.length == n) =
      (dedupByJoin [] (withBottom (HierarchySpec.mk H G))).filter
        (fun a => a.length == n)) ∧
    (H ++ G ≠ [""] →
      (HierarchySpec.mk H G).level_combinations.getLast? = some (H ++ G)) := by
  refine ⟨mem_nil_level_combinations _, level_combinations_head _,
    level_combinations_nodup _, level_combinations_sorted _,
    fun n => level_combinations_filter _ n, fun hne =>
      level_combinations_getLast (s := HierarchySpec.mk H G) hne⟩

/-- C5 witness: the amended last-element conclusion evaluated at a
one-column hierarchy with one group column. -/
theorem claim_C5_witness :
    (HierarchySpec.mk ["a"] ["b"]).level_combinations.getLast? =
      some (["a"] ++ ["b"]) :=
  (claim_C5_amended ["a"] ["b"]).2.2.2.2.2 (by decide)

/-- C4 counterexample: the claim asserts exactness of `aggregate` for
every input vector whose entries are integer-valued and exactly
representable in f64. The entries 2^53 and 1 are exactly representable
(`fRound` fixes both), yet on the concrete nesting tree with input
[2^53, 2^53, 1] the binary64 accumulation at the Total row rounds
2^54 + 1 to 2^54 (the unit in the last place of the binade of 2^54 is 4),
while the exact sum over the Total node's members is 2^54 + 1: the
claimed equality fails even though every entry is representable. -/
theorem claim_C4_counterexample :
    fRound (2 ^ 53) = 2 ^ 53 ∧ fRound 1 = 1 ∧
    ((SummationMatrix.from_hierarchy tNest).aggregate
        [2 ^ 53, 2 ^ 53, 1]).map (fun res => res.getD 0 0) =
      some (2 ^ 54) ∧
    (tNest.nodes.getD 0 default).id = "Total" ∧
    ((tNest.nodes.getD 0 default).aggregates_from.map
      (fun j => List.getD [(2 : Int) ^ 53, 2 ^ 53, 1] j 0)).sum =
      2 ^ 54 + 1 ∧
    ((2 : Int) ^ 54 ≠ 2 ^ 54 + 1) := by
  decide

/-- C4 (amended): for every successfully built tree and every
integer-valued input vector of the right length whose entries' absolute
values sum to at most 2^53 (so that every partial sum of the binary64
accumulation is exactly representable and every IEEE addition is exact),
`aggregate` succeeds and its value at every node row equals the sum of
the input entries over that node's member set; in particular the first
row is the total node and its value is the sum of all entries. Entry-wise
representability alone, as in the original claim, is not sufficient: see
the counterexample. -/
theorem claim_C4_amended {df : DFrame} {spec : HierarchySpec}
    {t : HierarchyTree}
    (hok : HierarchyTree.from_dataframe df spec = .ok t)
    (b : List Int) (hb : b.length = t.n_bottom)
    (hbound : (b.map Int.natAbs).sum ≤ 2 ^ 53) :
    ∃ res, (SummationMatrix.from_hierarchy t).aggregate b = some res ∧
      res.length = t.n_series ∧
      (∀ i, i < t.n_series →
        res.getD i 0 =
          ((t.nodes.getD i default).aggregates_from.map
            (fun j => b.getD j 0)).sum) ∧
      (t.nodes.getD 0 default).id = "Total" ∧
      res.getD 0 0 = b.sum := by
  obtain ⟨hnodes, hnb, hnl⟩ := from_dataframe_ok hok
  have hM : (SummationMatrix.from_hierarchy t).ncols =
      (bottomFrame df spec).rows.length := hnb
  have h0' : (SummationMatrix.from_hierarchy t).aggregate b =
      some ((List.range (SummationMatrix.from_hierarchy t).nrows).map
        (fun i => ((List.range
            (SummationMatrix.from_hierarchy t).ncols).map
          (fun j => (SummationMatrix.from_hierarchy t).entry i j *
            b.getD j 0)).foldl fadd 0)) := by
    unfold SummationMatrix.aggregate
    rw [if_pos (show b.length = (SummationMatrix.from_hierarchy t).ncols
      from hb)]
  have hexact : ∀ i,
      ((List.range (SummationMatrix.from_hierarchy t).ncols).map
        (fun j => (SummationMatrix.from_hierarchy t).entry i j *
          b.getD j 0)).foldl fadd 0 =
      ((List.range (SummationMatrix.from_hierarchy t).ncols).map
        (fun j => (SummationMatrix.from_hierarchy t).entry i j *
          b.getD j 0)).sum := by
    intro i
    have hptw : ((List.range (SummationMatrix.from_hierarchy t).ncols).map
        (fun j => ((SummationMatrix.from_hierarchy t).entry i j *
          b.getD j 0).natAbs)).sum ≤
        ((List.range (SummationMatrix.from_hierarchy t).ncols).map
          (fun j => (b.getD j 0).natAbs)).sum := by
      apply List.sum_le_sum
      intro j _
      show ((if j ∈ (t.nodes.getD i default).aggregates_from
        then (1 : Int) else 0) * b.getD j 0).natAbs ≤ (b.getD j 0).natAbs
      exact natAbs_ite_mul _ _
    have hrange : ((List.range
        (SummationMatrix.from_hierarchy t).ncols).map
        (fun j => (b.getD j 0).natAbs)).sum = (b.map Int.natAbs).sum := by
      rw [show (SummationMatrix.from_hierarchy t).ncols = b.length
        from hb.symm, map_natAbs_getD_range]
    have habs : (((List.range
        (SummationMatrix.from_hierarchy t).ncols).map
        (fun j => (SummationMatrix.from_hierarchy t).entry i j *
          b.getD j 0)).map Int.natAbs).sum ≤ 2 ^ 53 := by
      rw [List.map_map]
      exact le_trans (le_trans hptw (le_of_eq hrange)) hbound
    have hzero : (0 : Int).natAbs +
        (((List.range (SummationMatrix.from_hierarchy t).ncols).map
          (fun j => (SummationMatrix.from_hierarchy t).entry i j *
            b.getD j 0)).map Int.natAbs).sum ≤ 2 ^ 53 := by
      simpa using habs
    rw [foldl_fadd_exact _ 0 hzero, zero_add]
  have h1 : (SummationMatrix.from_hierarchy t).aggregate b =
      some ((List.range (SummationMatrix.from_hierarchy t).nrows).map
        (fun i => ((List.range
            (SummationMatrix.from_hierarchy t).ncols).map
          (fun j => (SummationMatrix.from_hierarchy t).entry i j *
            b.getD j 0)).sum)) := by
    rw [h0']
    congr 1
    apply List.map_congr_left
    intro i _
    exact hexact i
  have hres3 : ∀ i, i < t.n_series →
      ((List.range (SummationMatrix.from_hierarchy t).nrows).map
        (fun i => ((List.range
            (SummationMatrix.from_hierarchy t).ncols).map
          (fun j => (SummationMatrix.from_hierarchy t).entry i j *
            b.getD j 0)).sum)).getD i 0 =
        ((t.nodes.getD i default).aggregates_from.map
          (fun j => b.getD j 0)).sum := by
    intro i hi
    have hi2 : i < (SummationMatrix.from_hierarchy t).nrows := hi
    rw [List.getD_eq_getElem _ _ (by simpa using hi2), List.getElem_map,
      List.getElem_range]
    obtain ⟨nd, hndval⟩ : ∃ nd, t.nodes.getD i default = nd := ⟨_, rfl⟩
    have hmem : nd ∈ t.nodes := by
      rw [← hndval, List.getD_eq_getElem _ _
        (show i < t.nodes.length from hi)]
      exact List.getElem_mem _
    rw [hnodes] at hmem
    rcases List.mem_flatMap.mp hmem with ⟨p, _, hmem2⟩
    obtain ⟨pr, hpr⟩ := buildLevelNodes_members_shape _ hmem2
    rw [hndval, hpr, hM]
    have hcong : (List.range (bottomFrame df spec).rows.length).map
        (fun j => (SummationMatrix.from_hierarchy t).entry i j *
          b.getD j 0) =
        (List.range (bottomFrame df spec).rows.length).map
          (fun j => if pr j then b.getD j 0 else 0) := by
      apply List.map_congr_left
      intro j hj
      have hentry : (SummationMatrix.from_hierarchy t).entry i j =
          if j ∈ (List.range
            ((bottomFrame df spec).rows.length)).filter pr
          then 1 else 0 := by
        show (if j ∈ (t.nodes.getD i default).aggregates_from
          then 1 else 0) = _
        rw [hndval, hpr]
      rw [hentry]
      by_cases hprj : pr j
      · rw [if_pos (List.mem_filter.mpr ⟨hj, hprj⟩), if_pos hprj, one_mul]
      · rw [if_neg (fun hmem3 => hprj (List.mem_filter.mp hmem3).2),
          if_neg hprj, zero_mul]
    rw [hcong, sum_map_ite_filter]
  have hhead := level_combinations_head spec
  obtain ⟨rest, hrest⟩ : ∃ rest, spec.level_combinations = [] :: rest := by
    cases hL : spec.level_combinations with
    | nil =>
      rw [hL] at hhead
      cases hhead
    | cons a as =>
      rw [hL] at hhead
      have ha := Option.some.inj hhead
      exact ⟨as, by rw [ha]⟩
  have hcons : t.nodes =
      Node.mk "Total" 0 (List.range (bottomFrame df spec).rows.length) [] ::
        ((List.enumFrom 1 rest).flatMap
          (fun p => buildLevelNodes (bottomFrame df spec)
            (bottomFrame df spec).rows.length p.1 p.2)) := by
    rw [hnodes, hrest]
    rfl
  have h0 : 0 < t.n_series := by
    rw [HierarchyTree.n_series, hcons]
    exact Nat.succ_pos _
  have h4 : (t.nodes.getD 0 default).id = "Total" := by
    rw [hcons]
    rfl
  have h5 : ((t.nodes.getD 0 default).aggregates_from.map
      (fun j => b.getD j 0)).sum = b.sum := by
    rw [hcons]
    show ((List.range ((bottomFrame df spec).rows.length)).map
      (fun j => b.getD j 0)).sum = b.sum
    have hbl : (bottomFrame df spec).rows.length = b.length :=
      (hb.trans hnb).symm
    rw [hbl, map_getD_range b]
  exact ⟨_, h1, by rw [List.length_map, List.length_range]; rfl,
    hres3, h4, (hres3 0 h0).trans h5⟩

/-- C4 witness: the amended aggregate conclusion evaluated on the
concrete nesting tree with the integer vector 1, 2, 3, whose absolute
values sum to 6. -/
theorem claim_C4_witness :
    ∃ res, (SummationMatrix.from_hierarchy tNest).aggregate [1, 2, 3] =
        some res ∧
      res.length = tNest.n_series ∧
      (∀ i, i < tNest.n_series →
        res.getD i 0 =
          ((tNest.nodes.getD i default).aggregates_from.map
            (fun j => List.getD [1, 2, 3] j 0)).sum) ∧
      (tNest.nodes.getD 0 default).id = "Total" ∧
      res.getD 0 0 = List.sum [1, 2, 3] :=
  @claim_C4_amended dfNest specNest tNest (by decide) [1, 2, 3] (by decide)
    (by decide)

end Hts
